import Mathlib

/-!
Verification of the `pc` parser-combinator library (src/src/lib.rs).

Shallow embedding. A Rust `Parser<I, O>` value is a pure function
`I → Option (I × O)`: `some (g, v)` models `Ok((g, v))` and `none`
models `Err(())`. Positions (`StrGenerator`) are modelled as the list
of remaining characters of the underlying string; `forward(offset)`
advances by a byte offset, so character byte widths (`Char.utf8Size`,
the model of Rust's `len_utf8`) drive the arithmetic.
-/

namespace PC

/-- `ParseResult<G, O> = Result<(G, O), ()>` from lib.rs. -/
abbrev ParseResult (I O : Type) : Type := Option (I × O)

/-- The `Parser<I, O>` trait: a pure map from a position to a result. -/
abbrev Parser (I O : Type) : Type := I → ParseResult I O

/-- Total UTF-8 byte length of a character list; models Rust's
`str::len` for the string these characters spell. -/
def byteLen (s : List Char) : Nat := (s.map Char.utf8Size).sum

/-- `StrGenerator::forward(offset)`: drop `offset` bytes from the
remaining input. Characters are dropped while bytes remain; callers
in the library only ever pass the exact byte length of a matched
prefix, so the cut always falls on a character boundary. -/
def forwardChars (s : List Char) (n : Nat) : List Char :=
  match s, n with
  | s, 0 => s
  | [], _ => []
  | c :: cs, n => forwardChars cs (n - c.utf8Size)

/-- The first `n` bytes of the remaining input as characters; models
`str::slice_to(n).to_string()` in the literal-string matcher. -/
def takeBytes (s : List Char) (n : Nat) : List Char :=
  match s, n with
  | _, 0 => []
  | [], _ => []
  | c :: cs, n => c :: takeBytes cs (n - c.utf8Size)

/-- `str::starts_with` on character lists. -/
def startsWith : List Char → List Char → Bool
  | _, [] => true
  | [], _ :: _ => false
  | a :: as, b :: bs => (a == b) && startsWith as bs

/-- `impl Parser<I, char> for char` (lib.rs lines 35-45): succeed iff
the first character of the view equals the literal; advance by its
UTF-8 byte length and output the matched character. -/
def charParse (lit : Char) : Parser (List Char) Char :=
  fun input =>
    match input.head? with
    | some c => if c = lit then some (forwardChars input c.utf8Size, c) else none
    | none => none

/-- `impl Parser<I, String> for &str` (lib.rs lines 47-56): succeed iff
the view starts with the literal; advance by the literal's byte length
and output the matched substring copied out of the input. -/
def strParse (lit : List Char) : Parser (List Char) (List Char) :=
  fun input =>
    if startsWith input lit then
      some (forwardChars input (byteLen lit), takeBytes input (byteLen lit))
    else
      none

/-- `ConcatParser` (lib.rs lines 64-70): run `l`, then `r` from `l`'s
resulting position; pair the outputs. Either failure aborts. -/
def concatParse {I A B : Type} (l : Parser I A) (r : Parser I B) : Parser I (A × B) :=
  fun input =>
    match l input with
    | none => none
    | some (input1, a) =>
      match r input1 with
      | none => none
      | some (input2, b) => some (input2, (a, b))

/-- `MaybeParser` (lib.rs lines 78-85): wrap a success in `some`;
propagate failure as failure. -/
def maybeParse {I O : Type} (p : Parser I O) : Parser I (Option O) :=
  fun input =>
    match p input with
    | some (i, r) => some (i, some r)
    | none => none

/-- `MapParser` (lib.rs lines 128-135): apply `f` to a successful
output; propagate failure. -/
def mapParse {I O B : Type} (p : Parser I O) (f : O → B) : Parser I B :=
  fun input =>
    match p input with
    | some (i, r) => some (i, f r)
    | none => none

/-- `IgnoreLeftParser` (lib.rs lines 143-149): run `l`, then `r`;
keep only `r`'s output. -/
def ignoreLeftParse {I A B : Type} (l : Parser I A) (r : Parser I B) : Parser I B :=
  fun input =>
    match l input with
    | none => none
    | some (input1, _) =>
      match r input1 with
      | none => none
      | some (input2, b) => some (input2, b)

/-- `IgnoreRightParser` (lib.rs lines 157-163): run `l`, then `r`;
keep only `l`'s output. -/
def ignoreRightParse {I A B : Type} (l : Parser I A) (r : Parser I B) : Parser I A :=
  fun input =>
    match l input with
    | none => none
    | some (input1, a) =>
      match r input1 with
      | none => none
      | some (input2, _) => some (input2, a)

/-- `OrParser` (lib.rs lines 171-180): try `l` on a clone of the
position; on failure try `r` on the original position and return its
result verbatim. -/
def orParse {I O : Type} (l r : Parser I O) : Parser I O :=
  fun input =>
    match l input with
    | some res => some res
    | none => r input

/-- The `loop` body of `RepeatParser::parse` (lib.rs lines 98-108),
made total with a fuel parameter bounding the number of iterations:
`none` means the fuel ran out before the wrapped parser failed (the
Rust loop would still be running), `some (pos, vec)` means the loop
exited at position `pos` with collected outputs `vec`. -/
def repeatLoop {I O : Type} (p : Parser I O) : Nat → I → List O → Option (I × List O)
  | 0, _, _ => none
  | fuel + 1, pos, acc =>
    match p pos with
    | some (p1, r) => repeatLoop p fuel p1 (acc ++ [r])
    | none => some (pos, acc)

/-- `RepeatParser::parse` (lib.rs lines 93-119) with the loop bounded
by fuel. The outer `Option` is the fuel: `none` models a run of the
Rust loop that has not finished within `fuel` iterations; `some res`
is the parser's `ParseResult` once the loop exits, after the check
`vec.len() >= limit` against the optional minimum count. -/
def repeatParse {I O : Type} (p : Parser I O) (limit : Option Nat) (fuel : Nat) :
    I → Option (ParseResult I (List O)) :=
  fun input =>
    match repeatLoop p fuel input [] with
    | none => none
    | some (pos, vec) =>
      some (match limit with
            | some n => if n ≤ vec.length then some (pos, vec) else none
            | none => some (pos, vec))

/-- Helper equation: advancing by zero bytes is the identity. -/
theorem forwardChars_zero (s : List Char) : forwardChars s 0 = s := by
  cases s <;> rfl

/-- Helper equation: advancing from a nonempty view with a positive
byte count consumes the head character's bytes first. -/
theorem forwardChars_cons_pos (c : Char) (cs : List Char) (n : Nat) (h : 0 < n) :
    forwardChars (c :: cs) n = forwardChars cs (n - c.utf8Size) := by
  cases n with
  | zero => exact absurd h (by simp)
  | succ m => rfl

/-- Helper equation: taking a positive number of bytes keeps the head
character and recurses on the rest. -/
theorem takeBytes_cons_pos (c : Char) (cs : List Char) (n : Nat) (h : 0 < n) :
    takeBytes (c :: cs) n = c :: takeBytes cs (n - c.utf8Size) := by
  cases n with
  | zero => exact absurd h (by simp)
  | succ m => rfl

theorem byteLen_cons (c : Char) (s : List Char) :
    byteLen (c :: s) = c.utf8Size + byteLen s := by
  simp [byteLen]

/-- Advancing past a known prefix leaves exactly the suffix. -/
theorem forwardChars_append (l r : List Char) :
    forwardChars (l ++ r) (byteLen l) = r := by
  induction l with
  | nil => simp [byteLen, forwardChars]
  | cons c cs ih =>
    rw [List.cons_append, byteLen_cons,
      forwardChars_cons_pos c (cs ++ r) _ (Nat.lt_of_lt_of_le c.utf8Size_pos (Nat.le_add_right _ _)),
      Nat.add_sub_cancel_left]
    exact ih

/-- Taking the byte length of a known prefix copies exactly that prefix. -/
theorem takeBytes_append (l r : List Char) :
    takeBytes (l ++ r) (byteLen l) = l := by
  induction l with
  | nil => simp [byteLen, takeBytes]
  | cons c cs ih =>
    rw [List.cons_append, byteLen_cons,
      takeBytes_cons_pos c (cs ++ r) _ (Nat.lt_of_lt_of_le c.utf8Size_pos (Nat.le_add_right _ _)),
      Nat.add_sub_cancel_left]
    exact congrArg (c :: ·) ih

/-- `startsWith s l` holds exactly when `l` is a prefix of `s`. -/
theorem startsWith_iff (s l : List Char) :
    startsWith s l = true ↔ ∃ r, s = l ++ r := by
  induction l generalizing s with
  | nil =>
    simp only [startsWith, List.nil_append]
    exact ⟨fun _ => ⟨s, rfl⟩, fun _ => trivial⟩
  | cons b bs ih =>
    cases s with
    | nil => simp [startsWith]
    | cons a as =>
      constructor
      · intro h
        simp only [startsWith, Bool.and_eq_true, beq_iff_eq] at h
        obtain ⟨r, hr⟩ := (ih as).mp h.2
        exact ⟨r, by rw [h.1, hr]; rfl⟩
      · rintro ⟨r, hr⟩
        rw [List.cons_append] at hr
        injection hr with h1 h2
        simp only [startsWith, Bool.and_eq_true, beq_iff_eq]
        exact ⟨h1, (ih as).mpr ⟨r, h2⟩⟩

/-- C1: `Maybe(P)` succeeds with `some v` at `g'` whenever `P` succeeds
with `v` at `g'`, and fails whenever `P` fails — an inner failure is
never converted into a success carrying `none`. -/
theorem maybe_spec {I O : Type} (p : Parser I O) (g : I) :
    (∀ g' v, p g = some (g', v) → maybeParse p g = some (g', some v)) ∧
    (p g = none → maybeParse p g = none) := by
  constructor
  · intro g' v h
    simp [maybeParse, h]
  · intro h
    simp [maybeParse, h]

/-- Witness for C1 at concrete inputs: the character matcher for 'a'
wrapped in Maybe on "ab", and on "xb" where the inner parser fails. -/
theorem maybe_spec_witness :
    maybeParse (charParse 'a') ("ab".toList) = some ("b".toList, some 'a') ∧
    maybeParse (charParse 'a') ("xb".toList) = none :=
  ⟨(maybe_spec (charParse 'a') ("ab".toList)).1 ("b".toList) 'a' (by decide),
   (maybe_spec (charParse 'a') ("xb".toList)).2 (by decide)⟩

/-- C3: `Or(L, R)` returns `L`'s result when `L` succeeds; when `L`
fails, `R` is invoked on exactly the original position `g` and its
result (success or failure) is returned verbatim. -/
theorem or_spec {I O : Type} (l r : Parser I O) (g : I) :
    (∀ res, l g = some res → orParse l r g = some res) ∧
    (l g = none → orParse l r g = r g) := by
  constructor
  · intro res h
    simp [orParse, h]
  · intro h
    simp [orParse, h]

/-- Witness for C3: 'a'-matcher or 'b'-matcher on "ab" takes the left
branch; on "ba" the left branch fails and the right branch runs on the
original view "ba". -/
theorem or_spec_witness :
    orParse (charParse 'a') (charParse 'b') ("ab".toList) = some ("b".toList, 'a') ∧
    orParse (charParse 'a') (charParse 'b') ("ba".toList) = charParse 'b' ("ba".toList) :=
  ⟨(or_spec (charParse 'a') (charParse 'b') ("ab".toList)).1 ("b".toList, 'a') (by decide),
   (or_spec (charParse 'a') (charParse 'b') ("ba".toList)).2 (by decide)⟩

/-- C4: `Concat(L, R)` fails when `L` fails; when `L` succeeds at `g1`
with `a`, `R` runs at `g1` (never earlier), and the whole parser fails
if `R` fails at `g1`, or succeeds with `(a, b)` at `R`'s resulting
position `g2` if `R` succeeds there with `b`. -/
theorem concat_spec {I A B : Type} (l : Parser I A) (r : Parser I B) (g : I) :
    (l g = none → concatParse l r g = none) ∧
    (∀ g1 a, l g = some (g1, a) →
      (r g1 = none → concatParse l r g = none) ∧
      (∀ g2 b, r g1 = some (g2, b) → concatParse l r g = some (g2, (a, b)))) := by
  constructor
  · intro h
    simp [concatParse, h]
  · intro g1 a h1
    constructor
    · intro h2
      simp [concatParse, h1, h2]
    · intro g2 b h2
      simp [concatParse, h1, h2]

/-- Witness for C4: the spec's example — Concat('_', "bar") over
"_bar" succeeds with output ('_', "bar") and empty resulting view. -/
theorem concat_spec_witness :
    concatParse (charParse '_') (strParse ("bar".toList)) ("_bar".toList) =
      some ([], ('_', "bar".toList)) :=
  ((concat_spec (charParse '_') (strParse ("bar".toList)) ("_bar".toList)).2
      ("bar".toList) '_' (by decide)).2 [] ("bar".toList) (by decide)

/-- C5: `IgnoreLeft(L, R)` succeeds with `v` at `g'` iff `Concat(L, R)`
succeeds at `g'` with a pair whose second component is `v`;
symmetrically `IgnoreRight(L, R)` keeps the first component; and each
fails exactly when `Concat(L, R)` fails. -/
theorem ignore_spec {I A B : Type} (l : Parser I A) (r : Parser I B) (g : I) :
    (∀ g' v, ignoreLeftParse l r g = some (g', v) ↔
      ∃ a, concatParse l r g = some (g', (a, v))) ∧
    (∀ g' v, ignoreRightParse l r g = some (g', v) ↔
      ∃ b, concatParse l r g = some (g', (v, b))) ∧
    (ignoreLeftParse l r g = none ↔ concatParse l r g = none) ∧
    (ignoreRightParse l r g = none ↔ concatParse l r g = none) := by
  cases h1 : l g with
  | none =>
    refine ⟨fun g' v => ?_, fun g' v => ?_, ?_, ?_⟩ <;>
      simp [ignoreLeftParse, ignoreRightParse, concatParse, h1]
  | some res1 =>
    obtain ⟨g1, a⟩ := res1
    cases h2 : r g1 with
    | none =>
      refine ⟨fun g' v => ?_, fun g' v => ?_, ?_, ?_⟩ <;>
        simp [ignoreLeftParse, ignoreRightParse, concatParse, h1, h2]
    | some res2 =>
      obtain ⟨g2, b⟩ := res2
      refine ⟨fun g' v => ?_, fun g' v => ?_, ?_, ?_⟩
      · simp only [ignoreLeftParse, concatParse, h1, h2, Option.some.injEq, Prod.mk.injEq]
        constructor
        · rintro ⟨hg, hb⟩
          exact ⟨a, hg, rfl, hb⟩
        · rintro ⟨a1, hg, _, hb⟩
          exact ⟨hg, hb⟩
      · simp only [ignoreRightParse, concatParse, h1, h2, Option.some.injEq, Prod.mk.injEq]
        constructor
        · rintro ⟨hg, ha⟩
          exact ⟨b, hg, ha, rfl⟩
        · rintro ⟨b1, hg, ha, _⟩
          exact ⟨hg, ha⟩
      · simp [ignoreLeftParse, concatParse, h1, h2]
      · simp [ignoreRightParse, concatParse, h1, h2]

/-- Witness for C5: IgnoreLeft('_', "bar") on "_bar" succeeds with
"bar" at the empty view, so Concat succeeds there with some pair whose
second component is "bar". -/
theorem ignore_spec_witness :
    ∃ a, concatParse (charParse '_') (strParse ("bar".toList)) ("_bar".toList) =
      some ([], (a, "bar".toList)) :=
  ((ignore_spec (charParse '_') (strParse ("bar".toList)) ("_bar".toList)).1
      [] ("bar".toList)).mp (by decide)

/-- C6: the literal-character matcher succeeds iff the first character
of the view equals the literal; on success it outputs that character
and advances by its UTF-8 byte length (leaving exactly the tail);
otherwise — including on an empty view — it fails. -/
theorem char_spec (lit : Char) (g : List Char) :
    (g = [] → charParse lit g = none) ∧
    (∀ x rest, g = x :: rest →
      (x = lit → charParse lit g = some (forwardChars g x.utf8Size, x) ∧
        forwardChars g x.utf8Size = rest) ∧
      (x ≠ lit → charParse lit g = none)) := by
  constructor
  · intro h
    simp [charParse, h]
  · intro x rest hg
    subst hg
    constructor
    · intro hx
      refine ⟨by simp [charParse, hx], ?_⟩
      rw [forwardChars_cons_pos x rest _ x.utf8Size_pos, Nat.sub_self]
      exact forwardChars_zero rest
    · intro hx
      simp [charParse, hx]

/-- Witness for C6: on "abc" the matcher for 'a' succeeds with output
'a' and resulting view "bc"; on the empty view it fails; on "abc" the
matcher for 'x' fails. -/
theorem char_spec_witness :
    charParse 'a' ("abc".toList) = some ("bc".toList, 'a') ∧
    charParse 'a' ([] : List Char) = none ∧
    charParse 'x' ("abc".toList) = none := by
  have h := (char_spec 'a' ("abc".toList)).2 'a' ("bc".toList) (by decide)
  have h1 := (h.1 rfl).1
  have h2 := (h.1 rfl).2
  have h3 := (char_spec 'a' ([] : List Char)).1 rfl
  have h4 := (char_spec 'x' ("abc".toList)).2 'a' ("bc".toList) (by decide)
  exact ⟨by rw [h1, h2], h3, h4.2 (by decide)⟩

/-- C7: the literal-string matcher succeeds iff the view starts with
the literal (equivalently, the literal is a prefix); on success it
advances by the literal's byte length and outputs a copy of the
matched substring, which equals the literal, leaving exactly the
suffix; otherwise it fails. -/
theorem str_spec (lit g : List Char) :
    (startsWith g lit = true ↔ ∃ rest, g = lit ++ rest) ∧
    (startsWith g lit = false → strParse lit g = none) ∧
    (∀ rest, g = lit ++ rest →
      strParse lit g = some (forwardChars g (byteLen lit), takeBytes g (byteLen lit)) ∧
      forwardChars g (byteLen lit) = rest ∧
      takeBytes g (byteLen lit) = lit) := by
  refine ⟨startsWith_iff g lit, ?_, ?_⟩
  · intro h
    simp [strParse, h]
  · intro rest hg
    subst hg
    have hs : startsWith (lit ++ rest) lit = true :=
      (startsWith_iff (lit ++ rest) lit).mpr ⟨rest, rfl⟩
    exact ⟨by simp [strParse, hs], forwardChars_append lit rest, takeBytes_append lit rest⟩

/-- Witness for C7: on "foobar" the matcher for "foo" succeeds with
output "foo" and resulting view "bar"; on "fob" it fails. -/
theorem str_spec_witness :
    strParse ("foo".toList) ("foobar".toList) = some ("bar".toList, "foo".toList) ∧
    strParse ("foo".toList) ("fob".toList) = none := by
  have h := (str_spec ("foo".toList) ("foobar".toList)).2.2 ("bar".toList) (by decide)
  have hf := (str_spec ("foo".toList) ("fob".toList)).2.1 (by decide)
  exact ⟨by rw [h.1, h.2.1, h.2.2], hf⟩

/-- C8: `Map(P, f)` succeeds with `f v` at `g'` whenever `P` succeeds
with `v` at `g'`, and fails whenever `P` fails. -/
theorem map_spec {I O B : Type} (p : Parser I O) (f : O → B) (g : I) :
    (∀ g' v, p g = some (g', v) → mapParse p f g = some (g', f v)) ∧
    (p g = none → mapParse p f g = none) := by
  constructor
  · intro g' v h
    simp [mapParse, h]
  · intro h
    simp [mapParse, h]

/-- Witness for C8: mapping `Char.toUpper` over the 'a'-matcher on
"ab" yields 'A'; on "xb" the mapped parser fails like the inner one. -/
theorem map_spec_witness :
    mapParse (charParse 'a') Char.toUpper ("ab".toList) = some ("b".toList, 'A') ∧
    mapParse (charParse 'a') Char.toUpper ("xb".toList) = none :=
  ⟨(map_spec (charParse 'a') Char.toUpper ("ab".toList)).1 ("b".toList) 'a' (by decide),
   (map_spec (charParse 'a') Char.toUpper ("xb".toList)).2 (by decide)⟩

/-- A run of zero or more successful applications of `p`: starting at
the first position, each step consumes via a success of `p`, ending at
the position reached by the last success, with the outputs in order. -/
inductive RepeatSteps {I O : Type} (p : Parser I O) : I → I → List O → Prop where
  | nil (g : I) : RepeatSteps p g g []
  | cons (g g1 gf : I) (o : O) (os : List O) :
      p g = some (g1, o) → RepeatSteps p g1 gf os → RepeatSteps p g gf (o :: os)

/-- The repeat loop, when it exits, has performed a `RepeatSteps` run
extending the accumulator, and the wrapped parser fails at the final
position (the failing attempt's position is discarded). -/
theorem repeatLoop_sound {I O : Type} (p : Parser I O) :
    ∀ (fuel : Nat) (g gf : I) (acc vec : List O),
      repeatLoop p fuel g acc = some (gf, vec) →
      ∃ os, vec = acc ++ os ∧ RepeatSteps p g gf os ∧ p gf = none := by
  intro fuel
  induction fuel with
  | zero =>
    intro g gf acc vec h
    exact absurd h (by simp [repeatLoop])
  | succ m ih =>
    intro g gf acc vec h
    rw [repeatLoop] at h
    cases hp : p g with
    | none =>
      rw [hp] at h
      injection h with h
      injection h with h1 h2
      exact ⟨[], by simp [h2], h1 ▸ RepeatSteps.nil g, h1 ▸ hp⟩
    | some res =>
      obtain ⟨g1, o⟩ := res
      rw [hp] at h
      obtain ⟨os, hvec, hsteps, hfail⟩ := ih g1 gf (acc ++ [o]) vec h
      exact ⟨o :: os, by simp [hvec],
        RepeatSteps.cons g g1 gf o os hp hsteps, hfail⟩

/-- C2: when the repeat loop exits within the given fuel, the result
is the `RepeatSteps` run from `g` (so the final position is the one
reached by the last successful application and the outputs are the
ordered successes, with `p` failing at that final position);
`Repeat(P, min?)` then succeeds with exactly that sequence and
position when no minimum is configured or the minimum is met, fails
when a configured minimum exceeds the number of successes, and when
`p` fails immediately the result is the empty sequence at the
unchanged starting position. -/
theorem repeat_spec {I O : Type} (p : Parser I O) (limit : Option Nat) (fuel : Nat)
    (g gf : I) (vec : List O)
    (h : repeatLoop p fuel g [] = some (gf, vec)) :
    RepeatSteps p g gf vec ∧ p gf = none ∧
    ((limit = none ∨ ∃ n, limit = some n ∧ n ≤ vec.length) →
      repeatParse p limit fuel g = some (some (gf, vec))) ∧
    (∀ n, limit = some n → vec.length < n → repeatParse p limit fuel g = some none) ∧
    (p g = none → gf = g ∧ vec = []) := by
  obtain ⟨os, hvec, hsteps, hfail⟩ := repeatLoop_sound p fuel g gf [] vec h
  simp only [List.nil_append] at hvec
  subst hvec
  refine ⟨hsteps, hfail, ?_, ?_, ?_⟩
  · rintro (hl | ⟨n, hl, hn⟩)
    · simp [repeatParse, h, hl]
    · simp [repeatParse, h, hl, hn]
  · intro n hl hn
    simp [repeatParse, h, hl, Nat.not_le.mpr hn]
  · intro hp
    cases hsteps with
    | nil => exact ⟨rfl, rfl⟩
    | cons _ g1 _ o os hstep _ => rw [hp] at hstep; cases hstep

/-- Witness for C2: repeating the 'a'-matcher with minimum 2 over
"aab" collects ['a', 'a'] and stops at view "b"; with minimum 3 it
fails; with no minimum over "xyz" it succeeds with the empty sequence
at the unchanged start. -/
theorem repeat_spec_witness :
    RepeatSteps (charParse 'a') ("aab".toList) ("b".toList) ['a', 'a'] ∧
    repeatParse (charParse 'a') (some 2) 10 ("aab".toList) =
      some (some ("b".toList, ['a', 'a'])) ∧
    repeatParse (charParse 'a') (some 3) 10 ("aab".toList) = some none ∧
    repeatParse (charParse 'a') none 10 ("xyz".toList) =
      some (some ("xyz".toList, [])) :=
  have h2 := repeat_spec (charParse 'a') (some 2) 10
    ("aab".toList) ("b".toList) ['a', 'a'] (by decide)
  have h3 := repeat_spec (charParse 'a') (some 3) 10
    ("aab".toList) ("b".toList) ['a', 'a'] (by decide)
  have h0 := repeat_spec (charParse 'a') none 10
    ("xyz".toList) ("xyz".toList) [] (by decide)
  ⟨h2.1, h2.2.2.1 (Or.inr ⟨2, rfl, by decide⟩),
   h3.2.2.2.1 3 rfl (by decide),
   h0.2.2.1 (Or.inl rfl)⟩

/-- C10: whenever the wrapped parser succeeds at some position without
advancing it, the repeat loop never exits, whatever the iteration
bound and whether or not a minimum count is configured; and the
literal-string matcher for the empty string is such a parser — it
succeeds on every view with the position unchanged. -/
theorem repeat_nontermination {I O : Type} (p : Parser I O) (g : I) (o : O)
    (h : p g = some (g, o)) :
    (∀ fuel acc, repeatLoop p fuel g acc = none) ∧
    (∀ fuel limit, repeatParse p limit fuel g = none) ∧
    (∀ s : List Char, strParse [] s = some (s, [])) := by
  have hloop : ∀ fuel acc, repeatLoop p fuel g acc = none := by
    intro fuel
    induction fuel with
    | zero => intro acc; rfl
    | succ m ih =>
      intro acc
      rw [repeatLoop, h]
      exact ih (acc ++ [o])
  refine ⟨hloop, ?_, ?_⟩
  · intro fuel limit
    simp [repeatParse, hloop fuel []]
  · intro s
    have : startsWith s [] = true := by cases s <;> rfl
    simp [strParse, this, byteLen, forwardChars_zero, takeBytes]

/-- Witness for C10: repeating the empty-string matcher over "abc"
exhausts any fuel — here 7 iterations — without the loop exiting,
with or without a configured minimum. -/
theorem repeat_nontermination_witness :
    repeatLoop (strParse []) 7 ("abc".toList) [] = none ∧
    repeatParse (strParse []) none 7 ("abc".toList) = none ∧
    repeatParse (strParse []) (some 0) 7 ("abc".toList) = none :=
  have h := repeat_nontermination (strParse []) ("abc".toList) [] (by decide)
  ⟨h.1 7 [], h.2.1 7 none, h.2.1 7 (some 0)⟩

/-- The library's combinator trees over string input: one constructor
per parser the library offers — the two primitive matchers and each
combinator struct. `rep` carries the fuel bound of the embedded
repeat loop (fuel exhaustion, the source's divergence, is modelled as
failure here; divergence itself is treated separately). -/
inductive Comb : Type → Type 1 where
  | chr : Char → Comb Char
  | str : List Char → Comb (List Char)
  | concat {A B : Type} : Comb A → Comb B → Comb (A × B)
  | maybe {A : Type} : Comb A → Comb (Option A)
  | ignoreL {A B : Type} : Comb A → Comb B → Comb B
  | ignoreR {A B : Type} : Comb A → Comb B → Comb A
  | orElse {A : Type} : Comb A → Comb A → Comb A
  | mapC {A B : Type} : Comb A → (A → B) → Comb B
  | rep {A : Type} : Comb A → Option Nat → Nat → Comb (List A)

/-- Denotation of a combinator tree as the parser the library builds
for it. -/
def denote : {A : Type} → Comb A → Parser (List Char) A
  | _, Comb.chr c => charParse c
  | _, Comb.str s => strParse s
  | _, Comb.concat l r => concatParse (denote l) (denote r)
  | _, Comb.maybe p => maybeParse (denote p)
  | _, Comb.ignoreL l r => ignoreLeftParse (denote l) (denote r)
  | _, Comb.ignoreR l r => ignoreRightParse (denote l) (denote r)
  | _, Comb.orElse l r => orParse (denote l) (denote r)
  | _, Comb.mapC p f => mapParse (denote p) f
  | _, Comb.rep p limit fuel => fun g =>
      match repeatParse (denote p) limit fuel g with
      | some res => res
      | none => none

/-- C9: every parser the library offers — primitive matchers and every
combinator tree built from them — is a deterministic, stateless map
from positions to results: invoking the same parser on equal positions
always yields equal results, and the position value a failing parse
was given is left as it was, so re-invoking on it behaves
identically. -/
theorem deterministic_spec {A : Type} (t : Comb A) (g1 g2 : List Char) (h : g1 = g2) :
    denote t g1 = denote t g2 ∧ (denote t g1 = none → denote t g2 = none) := by
  subst h
  exact ⟨rfl, fun h => h⟩

/-- Witness for C9: the 'x'-matcher fails on "abc", and invoking it
again on the very same position fails identically. -/
theorem deterministic_spec_witness :
    denote (Comb.chr 'x') ("abc".toList) = denote (Comb.chr 'x') ("abc".toList) ∧
    (denote (Comb.chr 'x') ("abc".toList) = none →
      denote (Comb.chr 'x') ("abc".toList) = none) :=
  deterministic_spec (Comb.chr 'x') ("abc".toList) ("abc".toList) rfl

end PC
